import Mathlib

/-!
HomeApp — formal model of the name-claiming protocol and shopping list

Shallow embedding of the HomeApp repository's original logic:

* `toNameKey` — the name normalizer (`toNameKey` in the onboarding and home
  screens): trim, lowercase, whitespace runs → `-`, strip characters outside
  `[a-z0-9-]`, collapse hyphen runs, trim one leading/trailing hyphen,
  truncate to 40.
* the Firestore state (`homepages` registry, `homepagesByName` claim table)
  and the three lifecycle operations `createByName`, `joinByName`,
  `saveRename`, each modelled as a pure function that also returns the
  trace of transaction operations it issued.
* `addItem` — the shopping-list duplicate-guarded insert.

Strings are modelled as their lists of characters.  JavaScript strings are
UTF-16, but every character the pipeline keeps after the strip step is
ASCII, so `List.take 40` coincides with `.slice(0, 40)` at its use site.
`String.prototype.toLowerCase` is modelled by the simple ASCII case map
`Char.toLower`; the whitespace class of `trim` and `\s` is the JavaScript
one.
-/

namespace HomeApp

/-- The JavaScript whitespace class (`\s` and `String.prototype.trim`):
TAB..CR, SPACE, NBSP, OGHAM SPACE, U+2000..U+200A, LS, PS, NNBSP, MMSP,
IDEOGRAPHIC SPACE, BOM. -/
def isJsWs (c : Char) : Bool :=
  let n := c.toNat
  (9 ≤ n && n ≤ 13) || n == 32 || n == 0xA0 || n == 0x1680 ||
  (0x2000 ≤ n && n ≤ 0x200A) || n == 0x2028 || n == 0x2029 ||
  n == 0x202F || n == 0x205F || n == 0x3000 || n == 0xFEFF

/-- The character class `[a-z0-9-]` kept by `.replace(/[^a-z0-9-]/g, "")`. -/
def isKeyChar (c : Char) : Bool :=
  let n := c.toNat
  (97 ≤ n && n ≤ 122) || (48 ≤ n && n ≤ 57) || n == 45

/-- Worker for `collapseRuns`: replaces every maximal run of characters
satisfying `p` by the single character `r`; the flag records whether we are
inside such a run. -/
def collapseRunsGo (p : Char → Bool) (r : Char) (inRun : Bool) : List Char → List Char
  | [] => []
  | c :: cs =>
    if p c then
      if inRun then collapseRunsGo p r true cs
      else r :: collapseRunsGo p r true cs
    else c :: collapseRunsGo p r false cs

/-- `s.replace(/X+/g, "r")` for a character class `X`: each maximal run of
characters in the class becomes one `r`. -/
def collapseRuns (p : Char → Bool) (r : Char) (l : List Char) : List Char :=
  collapseRunsGo p r false l

/-- Remove a single leading hyphen (half of `.replace(/^-|-$/g, "")`). -/
def dropLeadHyphen (l : List Char) : List Char :=
  match l with
  | c :: cs => if c = '-' then cs else l
  | [] => []

/-- `.replace(/^-|-$/g, "")`: the regex removes one leading and one trailing
hyphen.  Realised as: drop one leading hyphen, then drop one leading hyphen
of the reversal. -/
def trimEdgeHyphensL (l : List Char) : List Char :=
  (dropLeadHyphen (dropLeadHyphen l).reverse).reverse

/-- `String.prototype.trim` on a character list. -/
def jsTrimL (l : List Char) : List Char :=
  ((l.dropWhile isJsWs).reverse.dropWhile isJsWs).reverse

/-- `String.prototype.trim`. -/
def jsTrim (s : String) : String :=
  ⟨jsTrimL s.data⟩

/-- The normalizer pipeline of `toNameKey` on character lists, in source
order: trim, lowercase, whitespace runs → `-`, strip to `[a-z0-9-]`,
collapse hyphen runs, trim edge hyphens, truncate to 40. -/
def toNameKeyL (l : List Char) : List Char :=
  (trimEdgeHyphensL
    (collapseRuns (fun c => c == '-') '-'
      (List.filter isKeyChar
        (collapseRuns isJsWs '-'
          (List.map Char.toLower (jsTrimL l)))))).take 40

/-- `toNameKey` from the source: normalize a display name to its canonical
key. -/
def toNameKey (s : String) : String :=
  ⟨toNameKeyL s.data⟩

/-- The normalizer pipeline up to (and excluding) the final `.slice(0, 40)`. -/
def preKeyL (l : List Char) : List Char :=
  trimEdgeHyphensL
    (collapseRuns (fun c => c == '-') '-'
      (List.filter isKeyChar
        (collapseRuns isJsWs '-'
          (List.map Char.toLower (jsTrimL l)))))

/-- No two adjacent characters of `l` both satisfy `p`. -/
def NoRunP (p : Char → Bool) (l : List Char) : Prop :=
  l.Chain' fun a b => ¬(p a = true ∧ p b = true)

/-- Modelled from the spec: "trimming whitespace, lowercasing, collapsing
runs of whitespace to single hyphens, stripping any character outside
`[a-z0-9-]`, collapsing repeated hyphens, trimming leading/trailing hyphens,
truncating to 40 characters".  The spec's "trimming leading/trailing
hyphens" is read as removing all leading and all trailing hyphens, to be
compared with the source's removal of at most one on each side. -/
def trimHyphensSpecL (l : List Char) : List Char :=
  ((l.dropWhile (fun c => c == '-')).reverse.dropWhile (fun c => c == '-')).reverse

/-- Modelled from the spec: the reference normalizer of §4.1, stage for
stage, with `trimHyphensSpecL` for the hyphen-trimming stage. -/
def specNormalizeL (l : List Char) : List Char :=
  (trimHyphensSpecL
    (collapseRuns (fun c => c == '-') '-'
      (List.filter isKeyChar
        (collapseRuns isJsWs '-'
          (List.map Char.toLower (jsTrimL l)))))).take 40

/-- Modelled from the spec: the reference normalizer on strings. -/
def specNormalize (s : String) : String :=
  ⟨specNormalizeL s.data⟩

/-- The spec's key shape `^[a-z0-9]([a-z0-9-]{0,38}[a-z0-9])?$`: nonempty,
at most 40 characters drawn from `[a-z0-9-]`, neither starting nor ending
with a hyphen. -/
def keyRegexOk (s : String) : Bool :=
  s.data.isEmpty ||
  (s.data.length ≤ 40 && s.data.all isKeyChar &&
    !(s.data.head? == some '-') && !(s.data.getLast? == some '-'))

/-! Firestore state and the lifecycle operations -/

/-- Outcomes of §7's error taxonomy surfaced by the lifecycle handlers
(`Alert.alert("Invalid name", …)`, the thrown "name is already taken"
message, `Alert.alert("Not found", …)`). -/
inductive Err where
  | invalidName
  | nameTaken
  | notFound
deriving DecidableEq

deriving instance DecidableEq for Except

/-- A `homepages/{id}` document: `{ name, nameKey, createdAt }`.
`createdAt` is `none` when the document was produced by a merge-set that
did not supply the field. -/
structure GroupRec where
  name : String
  nameKey : String
  createdAt : Option Nat
deriving DecidableEq

/-- The two collections the protocol touches: `homepages` (id → record)
and `homepagesByName` (key → `{ homePageId }`), as association lists. -/
structure DB where
  groups : List (String × GroupRec)
  claims : List (String × String)
deriving DecidableEq

/-- Lookup in an association list (a Firestore document read). -/
def alookup (k : String) : List (String × α) → Option α
  | [] => none
  | (k₁, v) :: rest => if k₁ = k then some v else alookup k rest

/-- Upsert in an association list (a Firestore document write). -/
def aset (k : String) (v : α) : List (String × α) → List (String × α)
  | [] => [(k, v)]
  | (k₁, v₁) :: rest => if k₁ = k then (k, v) :: rest else (k₁, v₁) :: aset k v rest

/-- Deletion in an association list (a Firestore document delete). -/
def adel (k : String) : List (String × α) → List (String × α)
  | [] => []
  | (k₁, v₁) :: rest => if k₁ = k then adel k rest else (k₁, v₁) :: adel k rest

/-- One operation issued through a transaction (or the lone `getDoc` of
join): reads and writes on the two collections. -/
inductive TxOp where
  /-- `tx.get(doc(db, "homepagesByName", key))` / `getDoc` of the same. -/
  | readClaim (key : String)
  /-- `tx.set(hpRef, { createdAt, name, nameKey })` — full set at a fresh id. -/
  | createGroupDoc (id name nameKey : String) (now : Nat)
  /-- `tx.set(hpRef, { name, nameKey }, { merge: true })`. -/
  | mergeGroupNameKey (id name nameKey : String)
  /-- `tx.set(mapRef, { homePageId }, { merge: true })`. -/
  | setClaim (key id : String)
  /-- `tx.delete(oldKeyRef)`. -/
  | deleteClaim (key : String)
deriving DecidableEq

/-- Whether an operation writes (reads leave the state unchanged). -/
def TxOp.isWrite : TxOp → Bool
  | .readClaim _ => false
  | _ => true

/-- The group record resulting from `tx.set(hpRef, { name, nameKey },
{ merge: true })`: the existing record with the two fields replaced, or a
fresh record without `createdAt` when the document does not exist. -/
def mergeRec (d : DB) (id name nameKey : String) : GroupRec :=
  match alookup id d.groups with
  | some g₀ => { g₀ with name := name, nameKey := nameKey }
  | none => ⟨name, nameKey, none⟩

/-- Apply one committed operation to the state. -/
def applyOp (d : DB) : TxOp → DB
  | .readClaim _ => d
  | .createGroupDoc id name nameKey now =>
    { d with groups := aset id ⟨name, nameKey, some now⟩ d.groups }
  | .mergeGroupNameKey id name nameKey =>
    { d with groups := aset id (mergeRec d id name nameKey) d.groups }
  | .setClaim key id => { d with claims := aset key id d.claims }
  | .deleteClaim key => { d with claims := adel key d.claims }

/-- Commit a transaction's write set in order. -/
def applyOps (d : DB) (ops : List TxOp) : DB :=
  ops.foldl applyOp d

/-- `true` iff no read occurs after a write in the trace. -/
def noReadAfterWrite : List TxOp → Bool
  | [] => true
  | op :: rest =>
    if op.isWrite then rest.all (fun o => o.isWrite)
    else noReadAfterWrite rest

/-- The body of `createByName`'s `runTransaction`: read the claim at `key`;
abort with `nameTaken` if it exists; otherwise set the new group document
and the claim.  Returns the trace of issued operations together with the
result. -/
def createTxBody (d : DB) (freshId name key : String) (now : Nat) :
    List TxOp × Except Err String :=
  match alookup key d.claims with
  | some _ => ([.readClaim key], .error .nameTaken)
  | none =>
    ([.readClaim key, .createGroupDoc freshId name key now, .setClaim key freshId],
     .ok freshId)

/-- `createByName`: trim the input, normalize to a key, reject when either
is empty, otherwise run the transaction; its writes commit only on
success.  `freshId` stands for the random document id of
`doc(collection(db, "homepages"))` and `now` for `serverTimestamp()`. -/
def createByName (d : DB) (input freshId : String) (now : Nat) :
    Except Err String × List TxOp × DB :=
  let name := jsTrim input
  let key := toNameKey name
  if name = "" || key = "" then (.error .invalidName, [], d)
  else
    match createTxBody d freshId name key now with
    | (ops, .ok id) => (.ok id, ops, applyOps d ops)
    | (ops, .error e) => (.error e, ops, d)

/-- `joinByName`: normalize, reject an empty key, then a single
(non-transactional) read of the claim; `notFound` when absent, otherwise
the stored `homePageId`. -/
def joinByName (d : DB) (joinName : String) : Except Err String × List TxOp :=
  let key := toNameKey joinName
  if key = "" then (.error .invalidName, [])
  else
    match alookup key d.claims with
    | none => (.error .notFound, [.readClaim key])
    | some id => (.ok id, [.readClaim key])

/-- The body of `saveRename`'s `runTransaction`: read the claim at
`newKey` and abort with `nameTaken` if it names a different group; write
the group's `{ name, nameKey }` (merge) and the claim at `newKey`; then,
when the subscribed previous key `oldKey` is non-null, nonempty and
differs from `newKey`, read the old claim and delete it only if it still
points to `homePageId`. -/
def renameTxBody (d : DB) (homePageId : String) (oldKey : Option String)
    (name newKey : String) : List TxOp × Except Err Unit :=
  let abort :=
    match alookup newKey d.claims with
    | some mapped => mapped != homePageId
    | none => false
  if abort then ([.readClaim newKey], .error .nameTaken)
  else
    let w : List TxOp :=
      [.readClaim newKey, .mergeGroupNameKey homePageId name newKey,
       .setClaim newKey homePageId]
    match oldKey with
    | some k₀ =>
      if k₀ ≠ "" ∧ k₀ ≠ newKey then
        match alookup k₀ d.claims with
        | some mappedOld =>
          if mappedOld = homePageId then
            (w ++ [.readClaim k₀, .deleteClaim k₀], .ok ())
          else (w ++ [.readClaim k₀], .ok ())
        | none => (w ++ [.readClaim k₀], .ok ())
      else (w, .ok ())
    | none => (w, .ok ())

/-- `saveRename`: trim the rename text, normalize to `newKey`, reject when
either is empty, otherwise run the transaction; its writes commit only on
success.  `oldKey` is the component's subscribed `homePageKey` state
(`null` and `""` are both falsy in the source's `homePageKey ? … : null`). -/
def saveRename (d : DB) (homePageId : String) (oldKey : Option String)
    (renameText : String) : Except Err Unit × List TxOp × DB :=
  let name := jsTrim renameText
  let newKey := toNameKey name
  if name = "" || newKey = "" then (.error .invalidName, [], d)
  else
    match renameTxBody d homePageId oldKey name newKey with
    | (ops, .ok _) => (.ok (), ops, applyOps d ops)
    | (ops, .error e) => (.error e, ops, d)

/-! Shopping list -/

/-- A `shoppingItems` document: `{ name, nameLower, purchased }`
(`createdAt` plays no role in the duplicate check and is omitted). -/
structure Item where
  name : String
  nameLower : String
  purchased : Bool
deriving DecidableEq

/-- `name.toLowerCase()` under the ASCII case map. -/
def jsToLowerStr (s : String) : String :=
  ⟨s.data.map Char.toLower⟩

/-- `addItem`: trim the input and bail out when empty; query for an item
with the same `nameLower`; if one exists the list is unchanged, otherwise
append `{ name, nameLower, purchased: false }`. -/
def addItem (items : List Item) (text : String) : List Item :=
  let name := jsTrim text
  if name = "" then items
  else
    let normalized := jsToLowerStr name
    if items.any (fun i => i.nameLower == normalized) then items
    else items ++ [⟨name, normalized, false⟩]

/-! Association-list lemmas -/

theorem alookup_aset_self (k : String) (v : α) (l : List (String × α)) :
    alookup k (aset k v l) = some v := by
  induction l with
  | nil => simp [aset, alookup]
  | cons hd tl ih =>
    obtain ⟨k₁, v₁⟩ := hd
    by_cases h : k₁ = k <;> simp [aset, alookup, h, ih]

theorem alookup_aset_ne (h : k₁ ≠ k) (v : α) (l : List (String × α)) :
    alookup k (aset k₁ v l) = alookup k l := by
  induction l with
  | nil => simp [aset, alookup, h]
  | cons hd tl ih =>
    obtain ⟨k₂, v₂⟩ := hd
    by_cases h₂ : k₂ = k₁
    · subst h₂; simp [aset, alookup, h, ih]
    · by_cases h₃ : k₂ = k <;> simp [aset, alookup, h₂, h₃, Ne.symm h, ih]

theorem alookup_adel_self (k : String) (l : List (String × α)) :
    alookup k (adel k l) = none := by
  induction l with
  | nil => simp [adel, alookup]
  | cons hd tl ih =>
    obtain ⟨k₁, v₁⟩ := hd
    by_cases h : k₁ = k <;> simp [adel, alookup, h, ih]

theorem alookup_adel_ne (h : k₁ ≠ k) (l : List (String × α)) :
    alookup k (adel k₁ l) = alookup k l := by
  induction l with
  | nil => simp [adel]
  | cons hd tl ih =>
    obtain ⟨k₂, v₂⟩ := hd
    by_cases h₂ : k₂ = k₁
    · subst h₂; simp [adel, alookup, h, ih]
    · by_cases h₃ : k₂ = k <;> simp [adel, alookup, h₂, h₃, Ne.symm h, ih]

/-! Character-class lemmas -/

theorem isJsWs_of_isKeyChar {c : Char} (h : isKeyChar c = true) : isJsWs c = false := by
  simp only [isKeyChar, Bool.or_eq_true, Bool.and_eq_true, decide_eq_true_eq,
    beq_iff_eq] at h
  simp only [isJsWs, Bool.or_eq_false_iff, Bool.and_eq_false_iff,
    decide_eq_false_iff_not, beq_eq_false_iff_ne, ne_eq]
  omega

theorem isKeyChar_hyphen : isKeyChar '-' = true := by decide

theorem isJsWs_hyphen : isJsWs '-' = false := by decide

theorem not_hyphen_of_isJsWs {c : Char} (h : isJsWs c = true) : c ≠ '-' := by
  intro hc; subst hc; simp [isJsWs_hyphen] at h

theorem toLower_eq_self_of_isKeyChar {c : Char} (h : isKeyChar c = true) :
    c.toLower = c := by
  simp only [isKeyChar, Bool.or_eq_true, Bool.and_eq_true, decide_eq_true_eq,
    beq_iff_eq] at h
  unfold Char.toLower
  rw [if_neg]
  omega

/-! `collapseRuns` lemmas -/

theorem mem_collapseRunsGo {p : Char → Bool} {r : Char} :
    ∀ {l : List Char} {b : Bool} {c : Char}, c ∈ collapseRunsGo p r b l →
      c = r ∨ (c ∈ l ∧ p c = false)
  | [], b, c, h => by simp [collapseRunsGo] at h
  | a :: as, b, c, h => by
    by_cases hp : p a = true
    · cases b with
      | true =>
        simp only [collapseRunsGo, hp, if_pos, if_true] at h
        rcases mem_collapseRunsGo h with h₁ | ⟨h₁, h₂⟩
        · exact Or.inl h₁
        · exact Or.inr ⟨List.mem_cons_of_mem _ h₁, h₂⟩
      | false =>
        simp only [collapseRunsGo, hp, if_pos, if_false] at h
        rcases List.mem_cons.mp h with h₁ | h₁
        · exact Or.inl h₁
        · rcases mem_collapseRunsGo h₁ with h₂ | ⟨h₂, h₃⟩
          · exact Or.inl h₂
          · exact Or.inr ⟨List.mem_cons_of_mem _ h₂, h₃⟩
    · rw [Bool.not_eq_true] at hp
      simp only [collapseRunsGo, hp, Bool.false_eq_true, if_false] at h
      rcases List.mem_cons.mp h with h₁ | h₁
      · exact Or.inr ⟨h₁ ▸ List.mem_cons_self a as, h₁ ▸ hp⟩
      · rcases mem_collapseRunsGo h₁ with h₂ | ⟨h₂, h₃⟩
        · exact Or.inl h₂
        · exact Or.inr ⟨List.mem_cons_of_mem _ h₂, h₃⟩

theorem collapseRunsGo_eq_self_of_none {p : Char → Bool} {r : Char} :
    ∀ {l : List Char} {b : Bool}, (∀ c ∈ l, p c = false) →
      collapseRunsGo p r b l = l
  | [], b, _ => rfl
  | a :: as, b, h => by
    have ha : p a = false := h a (List.mem_cons_self a as)
    simp only [collapseRunsGo, ha, Bool.false_eq_true, if_false, List.cons.injEq,
      true_and]
    exact collapseRunsGo_eq_self_of_none fun c hc => h c (List.mem_cons_of_mem _ hc)

theorem head_collapseRunsGo_true {p : Char → Bool} {r : Char} :
    ∀ {l : List Char} {c : Char}, (collapseRunsGo p r true l).head? = some c →
      p c = false
  | [], c, h => by simp [collapseRunsGo] at h
  | a :: as, c, h => by
    by_cases hp : p a = true
    · simp only [collapseRunsGo, hp, if_pos, if_true] at h
      exact head_collapseRunsGo_true h
    · rw [Bool.not_eq_true] at hp
      simp only [collapseRunsGo, hp, Bool.false_eq_true, if_false,
        List.head?_cons, Option.some.injEq] at h
      exact h ▸ hp

theorem noRunP_collapseRunsGo {p : Char → Bool} {r : Char} :
    ∀ (l : List Char) (b : Bool), NoRunP p (collapseRunsGo p r b l)
  | [], _ => List.chain'_nil
  | a :: as, b => by
    by_cases hp : p a = true
    · cases b with
      | true =>
        rw [collapseRunsGo, if_pos hp, if_pos rfl]
        exact noRunP_collapseRunsGo as true
      | false =>
        rw [collapseRunsGo, if_pos hp, if_neg Bool.false_ne_true]
        rw [NoRunP, List.chain'_cons']
        refine ⟨fun y hy => ?_, noRunP_collapseRunsGo as true⟩
        intro ⟨_, hpy⟩
        exact absurd hpy (by simpa using head_collapseRunsGo_true hy)
    · rw [Bool.not_eq_true] at hp
      rw [collapseRunsGo, if_neg (by simp [hp])]
      rw [NoRunP, List.chain'_cons']
      refine ⟨fun y hy => ?_, noRunP_collapseRunsGo as false⟩
      intro ⟨hpa, _⟩
      exact absurd hpa (by simp [hp])

/-- Identity of run-collapsing on a list with no adjacent `p`-pair, when
every `p`-character is the replacement itself. -/
theorem collapseRunsGo_eq_self_of_noRun {p : Char → Bool} {r : Char}
    (hr : ∀ c, p c = true → c = r) :
    ∀ {l : List Char}, NoRunP p l →
      collapseRunsGo p r false l = l ∧
        ((∀ d, l.head? = some d → p d = false) → collapseRunsGo p r true l = l)
  | [], _ => ⟨rfl, fun _ => rfl⟩
  | a :: as, h => by
    rw [NoRunP, List.chain'_cons'] at h
    obtain ⟨hadj, htl⟩ := h
    have ih := collapseRunsGo_eq_self_of_noRun hr htl
    constructor
    · by_cases hp : p a = true
      · have hcs : ∀ d, as.head? = some d → p d = false := by
          intro d hd
          rw [Bool.eq_false_iff]
          intro hpd
          exact hadj d hd ⟨hp, hpd⟩
        rw [collapseRunsGo, if_pos hp, if_neg Bool.false_ne_true, ih.2 hcs,
          ← hr a hp]
      · rw [Bool.not_eq_true] at hp
        rw [collapseRunsGo, if_neg (by simp [hp]), ih.1]
    · intro hhd
      have hp : p a = false := hhd a rfl
      rw [collapseRunsGo, if_neg (by simp [hp]), ih.1]

/-! Trim and edge-hyphen lemmas -/

theorem dropWhile_eq_self_of_head {p : Char → Bool} {l : List Char}
    (h : ∀ c, l.head? = some c → p c = false) : l.dropWhile p = l := by
  cases l with
  | nil => rfl
  | cons c cs => rw [List.dropWhile_cons, if_neg (by simp [h c rfl])]

theorem head?_dropWhile_false (p : Char → Bool) (l : List Char) :
    ∀ c, (l.dropWhile p).head? = some c → p c = false := by
  intro c hc
  have h := List.head?_dropWhile_not p l
  rw [hc] at h
  exact h

theorem getLast?_dropWhile (p : Char → Bool) (l : List Char) {c : Char}
    (h : (l.dropWhile p).getLast? = some c) : l.getLast? = some c := by
  obtain ⟨t, ht⟩ := List.dropWhile_suffix p (l := l)
  rw [← ht, List.getLast?_append, h, Option.or_some]

theorem mem_jsTrimL {l : List Char} {c : Char} (h : c ∈ jsTrimL l) : c ∈ l := by
  rw [jsTrimL, List.mem_reverse] at h
  have h₁ := (List.dropWhile_sublist _).subset h
  rw [List.mem_reverse] at h₁
  exact (List.dropWhile_sublist _).subset h₁

theorem head?_jsTrimL_false (l : List Char) :
    ∀ c, (jsTrimL l).head? = some c → isJsWs c = false := by
  intro c hc
  rw [jsTrimL, List.head?_reverse] at hc
  have h₁ := getLast?_dropWhile _ _ hc
  rw [List.getLast?_reverse] at h₁
  exact head?_dropWhile_false _ _ _ h₁

theorem getLast?_jsTrimL_false (l : List Char) :
    ∀ c, (jsTrimL l).getLast? = some c → isJsWs c = false := by
  intro c hc
  rw [jsTrimL, List.getLast?_reverse] at hc
  exact head?_dropWhile_false _ _ _ hc

theorem jsTrimL_eq_self_of_ends {l : List Char}
    (h₁ : ∀ c, l.head? = some c → isJsWs c = false)
    (h₂ : ∀ c, l.getLast? = some c → isJsWs c = false) : jsTrimL l = l := by
  rw [jsTrimL, dropWhile_eq_self_of_head h₁]
  rw [dropWhile_eq_self_of_head fun c hc =>
    h₂ c (by rwa [List.head?_reverse] at hc)]
  exact List.reverse_reverse l

theorem jsTrimL_eq_self {l : List Char} (h : ∀ c ∈ l, isJsWs c = false) :
    jsTrimL l = l :=
  jsTrimL_eq_self_of_ends
    (fun c hc => h c (by
      rw [List.head?_eq_some_iff] at hc
      obtain ⟨ys, rfl⟩ := hc
      exact List.mem_cons_self c ys))
    (fun c hc => h c (List.mem_of_mem_getLast? hc))

theorem jsTrimL_idem (l : List Char) : jsTrimL (jsTrimL l) = jsTrimL l :=
  jsTrimL_eq_self_of_ends (head?_jsTrimL_false l) (getLast?_jsTrimL_false l)

theorem mem_dropLeadHyphen {l : List Char} {c : Char} (h : c ∈ dropLeadHyphen l) :
    c ∈ l := by
  cases l with
  | nil => simp [dropLeadHyphen] at h
  | cons a as =>
    rw [dropLeadHyphen] at h
    split at h
    · exact List.mem_cons_of_mem a h
    · exact h

theorem dropLeadHyphen_eq_self {l : List Char}
    (h : ∀ c, l.head? = some c → c ≠ '-') : dropLeadHyphen l = l := by
  cases l with
  | nil => rfl
  | cons a as => rw [dropLeadHyphen, if_neg (h a rfl)]

theorem noRunP_dropLeadHyphen {p : Char → Bool} {l : List Char} (h : NoRunP p l) :
    NoRunP p (dropLeadHyphen l) := by
  cases l with
  | nil => exact h
  | cons a as =>
    rw [dropLeadHyphen]
    split
    · exact List.Chain'.tail h
    · exact h

theorem head?_dropLeadHyphen {l : List Char}
    (h : NoRunP (fun c => c == '-') l) :
    ∀ c, (dropLeadHyphen l).head? = some c → c ≠ '-' := by
  intro c hc
  cases l with
  | nil => simp [dropLeadHyphen] at hc
  | cons a as =>
    rw [dropLeadHyphen] at hc
    split at hc
    · rename_i ha
      rw [NoRunP, List.chain'_cons'] at h
      have := h.1 c hc
      intro hc'
      exact this (by simp [ha, hc'])
    · rename_i ha
      rw [List.head?_cons, Option.some.injEq] at hc
      exact hc ▸ ha

theorem getLast?_dropLeadHyphen {l : List Char} {c : Char}
    (h : (dropLeadHyphen l).getLast? = some c) : l.getLast? = some c := by
  cases l with
  | nil => simp [dropLeadHyphen] at h
  | cons a as =>
    rw [dropLeadHyphen] at h
    split at h
    · cases as with
      | nil => simp at h
      | cons b bs => rw [List.getLast?_cons_cons]; exact h
    · exact h

theorem mem_trimEdgeHyphensL {l : List Char} {c : Char}
    (h : c ∈ trimEdgeHyphensL l) : c ∈ l := by
  rw [trimEdgeHyphensL, List.mem_reverse] at h
  have h₁ := mem_dropLeadHyphen h
  rw [List.mem_reverse] at h₁
  exact mem_dropLeadHyphen h₁

theorem noRunP_reverse {p : Char → Bool} {l : List Char} (h : NoRunP p l) :
    NoRunP p l.reverse := by
  rw [NoRunP, List.chain'_reverse]
  exact List.Chain'.imp (fun a b hab hba => hab ⟨hba.2, hba.1⟩) h

theorem noRunP_trimEdgeHyphensL {p : Char → Bool} {l : List Char}
    (h : NoRunP p l) : NoRunP p (trimEdgeHyphensL l) :=
  noRunP_reverse (noRunP_dropLeadHyphen (noRunP_reverse (noRunP_dropLeadHyphen h)))

theorem head?_trimEdgeHyphensL {l : List Char}
    (h : NoRunP (fun c => c == '-') l) :
    ∀ c, (trimEdgeHyphensL l).head? = some c → c ≠ '-' := by
  intro c hc
  rw [trimEdgeHyphensL, List.head?_reverse] at hc
  have h₁ := getLast?_dropLeadHyphen hc
  rw [List.getLast?_reverse] at h₁
  exact head?_dropLeadHyphen h c h₁

theorem getLast?_trimEdgeHyphensL {l : List Char}
    (h : NoRunP (fun c => c == '-') l) :
    ∀ c, (trimEdgeHyphensL l).getLast? = some c → c ≠ '-' := by
  intro c hc
  rw [trimEdgeHyphensL, List.getLast?_reverse] at hc
  exact head?_dropLeadHyphen (noRunP_reverse (noRunP_dropLeadHyphen h)) c hc

theorem trimEdgeHyphensL_eq_self {l : List Char}
    (h₁ : ∀ c, l.head? = some c → c ≠ '-')
    (h₂ : ∀ c, l.getLast? = some c → c ≠ '-') : trimEdgeHyphensL l = l := by
  rw [trimEdgeHyphensL, dropLeadHyphen_eq_self h₁]
  rw [dropLeadHyphen_eq_self fun c hc =>
    h₂ c (by rwa [List.head?_reverse] at hc)]
  exact List.reverse_reverse l

theorem trimEdgeHyphensL_of_getLast_hyphen {l : List Char}
    (h₁ : ∀ c, l.head? = some c → c ≠ '-')
    (h₂ : l.getLast? = some '-') : trimEdgeHyphensL l = l.dropLast := by
  have hne : l ≠ [] := by
    intro e
    rw [e] at h₂
    simp at h₂
  have hrev : l.reverse = '-' :: l.dropLast.reverse := by
    conv_lhs => rw [← List.dropLast_concat_getLast hne]
    rw [List.reverse_concat]
    have : l.getLast hne = '-' := by
      have := List.getLast?_eq_getLast l hne
      rw [h₂] at this
      exact (Option.some.injEq _ _ ▸ this.symm)
    rw [this]
  rw [trimEdgeHyphensL, dropLeadHyphen_eq_self h₁, hrev, dropLeadHyphen,
    if_pos rfl, List.reverse_reverse]

/-! Characterization of the normalizer's output -/

theorem collapseRuns_eq_self_of_none {p : Char → Bool} {r : Char} {l : List Char}
    (h : ∀ c ∈ l, p c = false) : collapseRuns p r l = l :=
  collapseRunsGo_eq_self_of_none h

theorem collapseRuns_eq_self_of_noRun {p : Char → Bool} {r : Char} {l : List Char}
    (hr : ∀ c, p c = true → c = r) (h : NoRunP p l) : collapseRuns p r l = l :=
  (collapseRunsGo_eq_self_of_noRun hr h).1

theorem mem_preKeyL_isKeyChar {l : List Char} {c : Char} (h : c ∈ preKeyL l) :
    isKeyChar c = true := by
  have h₁ := mem_trimEdgeHyphensL h
  rcases mem_collapseRunsGo h₁ with rfl | ⟨h₂, _⟩
  · exact isKeyChar_hyphen
  · exact (List.mem_filter.mp h₂).2

theorem noRunP_preKeyL (l : List Char) :
    NoRunP (fun c => c == '-') (preKeyL l) :=
  noRunP_trimEdgeHyphensL (noRunP_collapseRunsGo _ false)

theorem head?_preKeyL (l : List Char) :
    ∀ c, (preKeyL l).head? = some c → c ≠ '-' :=
  head?_trimEdgeHyphensL (noRunP_collapseRunsGo _ false)

theorem getLast?_preKeyL (l : List Char) :
    ∀ c, (preKeyL l).getLast? = some c → c ≠ '-' :=
  getLast?_trimEdgeHyphensL (noRunP_collapseRunsGo _ false)

theorem toNameKeyL_eq_take (l : List Char) : toNameKeyL l = (preKeyL l).take 40 :=
  rfl

theorem head?_take {l : List Char} {n : Nat} {c : Char}
    (h : (l.take n).head? = some c) : l.head? = some c := by
  cases l <;> cases n <;> simp_all

theorem mem_toNameKeyL_isKeyChar {l : List Char} {c : Char}
    (h : c ∈ toNameKeyL l) : isKeyChar c = true :=
  mem_preKeyL_isKeyChar ((List.take_sublist _ _).subset h)

theorem length_toNameKeyL_le (l : List Char) : (toNameKeyL l).length ≤ 40 := by
  rw [toNameKeyL_eq_take, List.length_take]
  omega

theorem head?_toNameKeyL (l : List Char) :
    ∀ c, (toNameKeyL l).head? = some c → c ≠ '-' :=
  fun c hc => head?_preKeyL l c (head?_take (toNameKeyL_eq_take l ▸ hc))

theorem noRunP_toNameKeyL (l : List Char) :
    NoRunP (fun c => c == '-') (toNameKeyL l) :=
  toNameKeyL_eq_take l ▸ List.Chain'.take (noRunP_preKeyL l) 40

theorem length_of_getLast?_toNameKeyL_hyphen {l : List Char}
    (h : (toNameKeyL l).getLast? = some '-') : (toNameKeyL l).length = 40 := by
  rcases le_or_lt (preKeyL l).length 40 with hle | hlt
  · rw [toNameKeyL_eq_take, List.take_of_length_le hle] at h
    exact absurd rfl (getLast?_preKeyL l '-' h)
  · rw [toNameKeyL_eq_take, List.length_take]
    omega

/-! The normalizer fixes its own outputs (up to the truncation quirk) -/

theorem toNameKeyL_eq_self {k : List Char}
    (hkey : ∀ c ∈ k, isKeyChar c = true)
    (hrun : NoRunP (fun c => c == '-') k)
    (hhd : ∀ c, k.head? = some c → c ≠ '-')
    (hlast : ∀ c, k.getLast? = some c → c ≠ '-')
    (hlen : k.length ≤ 40) : toNameKeyL k = k := by
  have hws : ∀ c ∈ k, isJsWs c = false := fun c hc => isJsWs_of_isKeyChar (hkey c hc)
  have hmap : List.map Char.toLower k = k := by
    rw [List.map_congr_left fun c hc => toLower_eq_self_of_isKeyChar (hkey c hc)]
    exact List.map_id k
  rw [toNameKeyL, jsTrimL_eq_self hws, hmap, collapseRuns_eq_self_of_none hws,
    List.filter_eq_self.mpr hkey,
    collapseRuns_eq_self_of_noRun (fun c hc => by simpa using hc) hrun,
    trimEdgeHyphensL_eq_self hhd hlast, List.take_of_length_le hlen]

theorem toNameKeyL_of_getLast_hyphen {k : List Char}
    (hkey : ∀ c ∈ k, isKeyChar c = true)
    (hrun : NoRunP (fun c => c == '-') k)
    (hhd : ∀ c, k.head? = some c → c ≠ '-')
    (hlen : k.length ≤ 40)
    (hlast : k.getLast? = some '-') : toNameKeyL k = k.dropLast := by
  have hws : ∀ c ∈ k, isJsWs c = false := fun c hc => isJsWs_of_isKeyChar (hkey c hc)
  have hmap : List.map Char.toLower k = k := by
    rw [List.map_congr_left fun c hc => toLower_eq_self_of_isKeyChar (hkey c hc)]
    exact List.map_id k
  have hdl : k.dropLast.length ≤ 40 := by
    rw [List.length_dropLast]
    omega
  rw [toNameKeyL, jsTrimL_eq_self hws, hmap, collapseRuns_eq_self_of_none hws,
    List.filter_eq_self.mpr hkey,
    collapseRuns_eq_self_of_noRun (fun c hc => by simpa using hc) hrun,
    trimEdgeHyphensL_of_getLast_hyphen hhd hlast, List.take_of_length_le hdl]

theorem toNameKeyL_idem_of_not_hyphen {l : List Char}
    (h : (toNameKeyL l).getLast? ≠ some '-') :
    toNameKeyL (toNameKeyL l) = toNameKeyL l :=
  toNameKeyL_eq_self (fun _ hc => mem_toNameKeyL_isKeyChar hc) (noRunP_toNameKeyL l)
    (head?_toNameKeyL l)
    (fun _ hc hc' => h (hc' ▸ hc))
    (length_toNameKeyL_le l)

theorem toNameKeyL_not_idem_of_hyphen {l : List Char}
    (h : (toNameKeyL l).getLast? = some '-') :
    toNameKeyL (toNameKeyL l) ≠ toNameKeyL l := by
  rw [toNameKeyL_of_getLast_hyphen (fun _ hc => mem_toNameKeyL_isKeyChar hc)
    (noRunP_toNameKeyL l) (head?_toNameKeyL l) (length_toNameKeyL_le l) h]
  have hne : toNameKeyL l ≠ [] := by
    intro e
    rw [e] at h
    simp at h
  intro he
  have := congrArg List.length he
  rw [List.length_dropLast] at this
  have hpos : 0 < (toNameKeyL l).length := List.length_pos.mpr hne
  omega

theorem toNameKeyL_jsTrimL (l : List Char) :
    toNameKeyL (jsTrimL l) = toNameKeyL l := by
  simp only [toNameKeyL, jsTrimL_idem]

theorem toNameKey_jsTrim (s : String) : toNameKey (jsTrim s) = toNameKey s :=
  congrArg String.mk (toNameKeyL_jsTrimL s.data)

theorem toNameKey_empty_of_jsTrim_empty {s : String} (h : jsTrim s = "") :
    toNameKey s = "" := by
  rw [← toNameKey_jsTrim s, h]
  rfl

/-! The spec normalizer agrees with the source normalizer -/

theorem dropWhile_hyphen_eq_dropLead {l : List Char}
    (h : NoRunP (fun c => c == '-') l) :
    l.dropWhile (fun c => c == '-') = dropLeadHyphen l := by
  cases l with
  | nil => rfl
  | cons a as =>
    by_cases ha : a = '-'
    · subst ha
      rw [List.dropWhile_cons, if_pos (by simp), dropLeadHyphen, if_pos rfl]
      apply dropWhile_eq_self_of_head
      intro c hc
      rw [NoRunP, List.chain'_cons'] at h
      have h₁ := h.1 c hc
      rw [Bool.eq_false_iff]
      intro hc'
      exact h₁ ⟨by simp, hc'⟩
    · rw [List.dropWhile_cons, if_neg (by simp [ha]), dropLeadHyphen, if_neg ha]

theorem noRunP_collapseRuns (p : Char → Bool) (r : Char) (l : List Char) :
    NoRunP p (collapseRuns p r l) :=
  noRunP_collapseRunsGo l false

theorem trimHyphensSpecL_eq_trimEdge {l : List Char}
    (h : NoRunP (fun c => c == '-') l) :
    trimHyphensSpecL l = trimEdgeHyphensL l := by
  rw [trimHyphensSpecL, trimEdgeHyphensL, dropWhile_hyphen_eq_dropLead h,
    dropWhile_hyphen_eq_dropLead (noRunP_reverse (noRunP_dropLeadHyphen h))]

theorem specNormalizeL_eq_toNameKeyL (l : List Char) :
    specNormalizeL l = toNameKeyL l := by
  rw [specNormalizeL, toNameKeyL,
    trimHyphensSpecL_eq_trimEdge (noRunP_collapseRuns _ '-' _)]

/-! Computation lemmas for the lifecycle operations -/

theorem toNameKey_empty : toNameKey "" = "" := by decide

theorem jsTrim_ne_empty_of_key {s : String} (h : toNameKey (jsTrim s) ≠ "") :
    jsTrim s ≠ "" := by
  intro e
  rw [e, toNameKey_empty] at h
  exact h rfl

theorem createByName_invalid (d : DB) (input freshId : String) (now : Nat)
    (h : toNameKey (jsTrim input) = "") :
    createByName d input freshId now = (.error .invalidName, [], d) := by
  by_cases hn : jsTrim input = "" <;> simp [createByName, hn, h]

theorem createByName_taken (d : DB) (input freshId : String) (now : Nat) {b : String}
    (hk : toNameKey (jsTrim input) ≠ "")
    (hb : alookup (toNameKey (jsTrim input)) d.claims = some b) :
    createByName d input freshId now =
      (.error .nameTaken, [.readClaim (toNameKey (jsTrim input))], d) := by
  simp [createByName, jsTrim_ne_empty_of_key hk, hk, createTxBody, hb]

theorem createByName_ok (d : DB) (input freshId : String) (now : Nat)
    (hk : toNameKey (jsTrim input) ≠ "")
    (hnone : alookup (toNameKey (jsTrim input)) d.claims = none) :
    createByName d input freshId now =
      (.ok freshId,
       [.readClaim (toNameKey (jsTrim input)),
        .createGroupDoc freshId (jsTrim input) (toNameKey (jsTrim input)) now,
        .setClaim (toNameKey (jsTrim input)) freshId],
       ⟨aset freshId ⟨jsTrim input, toNameKey (jsTrim input), some now⟩ d.groups,
        aset (toNameKey (jsTrim input)) freshId d.claims⟩) := by
  simp [createByName, jsTrim_ne_empty_of_key hk, hk, createTxBody, hnone,
    applyOps, applyOp]

theorem saveRename_invalid (d : DB) (A : String) (ok? : Option String) (t : String)
    (h : toNameKey (jsTrim t) = "") :
    saveRename d A ok? t = (.error .invalidName, [], d) := by
  by_cases hn : jsTrim t = "" <;> simp [saveRename, hn, h]

theorem saveRename_taken (d : DB) (A : String) (ok? : Option String) (t : String) {b : String}
    (hk : toNameKey (jsTrim t) ≠ "")
    (hb : alookup (toNameKey (jsTrim t)) d.claims = some b) (hne : b ≠ A) :
    saveRename d A ok? t =
      (.error .nameTaken, [.readClaim (toNameKey (jsTrim t))], d) := by
  simp [saveRename, jsTrim_ne_empty_of_key hk, hk, renameTxBody, hb, hne]

theorem saveRename_ok_guardFalse (d : DB) (A : String) (ok? : Option String) (t : String)
    (hk : toNameKey (jsTrim t) ≠ "")
    (h : ∀ b, alookup (toNameKey (jsTrim t)) d.claims = some b → b = A)
    (hg : ok? = none ∨ ok? = some "" ∨ ok? = some (toNameKey (jsTrim t))) :
    saveRename d A ok? t =
      (.ok (),
       [.readClaim (toNameKey (jsTrim t)),
        .mergeGroupNameKey A (jsTrim t) (toNameKey (jsTrim t)),
        .setClaim (toNameKey (jsTrim t)) A],
       ⟨aset A (mergeRec d A (jsTrim t) (toNameKey (jsTrim t))) d.groups,
        aset (toNameKey (jsTrim t)) A d.claims⟩) := by
  have habort :
      (match alookup (toNameKey (jsTrim t)) d.claims with
        | some mapped => mapped != A
        | none => false) = false := by
    cases hc : alookup (toNameKey (jsTrim t)) d.claims with
    | none => rfl
    | some b => simp [h b hc]
  rcases hg with rfl | rfl | rfl <;>
    simp [saveRename, jsTrim_ne_empty_of_key hk, hk, renameTxBody, habort,
      applyOps, applyOp]

theorem saveRename_ok_del (d : DB) (A k₀ t : String)
    (hk : toNameKey (jsTrim t) ≠ "")
    (h : ∀ b, alookup (toNameKey (jsTrim t)) d.claims = some b → b = A)
    (hk₀ : k₀ ≠ "") (hne : k₀ ≠ toNameKey (jsTrim t))
    (hold : alookup k₀ d.claims = some A) :
    saveRename d A (some k₀) t =
      (.ok (),
       [.readClaim (toNameKey (jsTrim t)),
        .mergeGroupNameKey A (jsTrim t) (toNameKey (jsTrim t)),
        .setClaim (toNameKey (jsTrim t)) A,
        .readClaim k₀, .deleteClaim k₀],
       ⟨aset A (mergeRec d A (jsTrim t) (toNameKey (jsTrim t))) d.groups,
        adel k₀ (aset (toNameKey (jsTrim t)) A d.claims)⟩) := by
  have habort :
      (match alookup (toNameKey (jsTrim t)) d.claims with
        | some mapped => mapped != A
        | none => false) = false := by
    cases hc : alookup (toNameKey (jsTrim t)) d.claims with
    | none => rfl
    | some b => simp [h b hc]
  simp [saveRename, jsTrim_ne_empty_of_key hk, hk, renameTxBody, habort, hk₀,
    hne, hold, applyOps, applyOp]

theorem saveRename_ok_nodel (d : DB) (A k₀ t : String)
    (hk : toNameKey (jsTrim t) ≠ "")
    (h : ∀ b, alookup (toNameKey (jsTrim t)) d.claims = some b → b = A)
    (hk₀ : k₀ ≠ "") (hne : k₀ ≠ toNameKey (jsTrim t))
    (hnotA : ∀ m, alookup k₀ d.claims = some m → m ≠ A) :
    saveRename d A (some k₀) t =
      (.ok (),
       [.readClaim (toNameKey (jsTrim t)),
        .mergeGroupNameKey A (jsTrim t) (toNameKey (jsTrim t)),
        .setClaim (toNameKey (jsTrim t)) A,
        .readClaim k₀],
       ⟨aset A (mergeRec d A (jsTrim t) (toNameKey (jsTrim t))) d.groups,
        aset (toNameKey (jsTrim t)) A d.claims⟩) := by
  have habort :
      (match alookup (toNameKey (jsTrim t)) d.claims with
        | some mapped => mapped != A
        | none => false) = false := by
    cases hc : alookup (toNameKey (jsTrim t)) d.claims with
    | none => rfl
    | some b => simp [h b hc]
  cases hc : alookup k₀ d.claims with
  | none =>
    simp [saveRename, jsTrim_ne_empty_of_key hk, hk, renameTxBody, habort, hk₀,
      hne, hc, applyOps, applyOp]
  | some m =>
    simp [saveRename, jsTrim_ne_empty_of_key hk, hk, renameTxBody, habort, hk₀,
      hne, hc, hnotA m hc, applyOps, applyOp]

theorem toNameKey_data (s : String) : (toNameKey s).data = toNameKeyL s.data := by
  simp only [toNameKey]

theorem toNameKey_toNameKey_data (s : String) :
    (toNameKey (toNameKey s)).data = toNameKeyL (toNameKeyL s.data) := by
  rw [toNameKey_data, toNameKey_data]

/-! Claims -/

/-- C5 counterexample: the normalizer is not idempotent.  For the 41-character
input of 39 `a`s, a space and a `b`, normalization yields 39 `a`s followed by
a hyphen (the hyphen-trimming step runs before the truncation to 40), and
normalizing that once more strips the now-trailing hyphen. -/
theorem claim_C5_counterexample :
    toNameKey (toNameKey ⟨List.replicate 39 'a' ++ [' ', 'b']⟩) ≠
      toNameKey ⟨List.replicate 39 'a' ++ [' ', 'b']⟩ := by
  decide

/-- C5 amended: the normalizer is idempotent exactly on those inputs whose
normalized key does not end with a hyphen (equivalently, idempotence can only
fail when truncation to 40 characters cut the key right after a hyphen). -/
theorem claim_C5_idempotent_iff (s : String) :
    toNameKey (toNameKey s) = toNameKey s ↔
      (toNameKey s).data.getLast? ≠ some '-' := by
  have hd : (toNameKey (toNameKey s)).data = toNameKeyL (toNameKeyL s.data) :=
    toNameKey_toNameKey_data s
  have hd₁ : (toNameKey s).data = toNameKeyL s.data := toNameKey_data s
  constructor
  · intro he hl
    rw [hd₁] at hl
    have h₂ := congrArg String.data he
    rw [hd, hd₁] at h₂
    exact toNameKeyL_not_idem_of_hyphen hl h₂
  · intro hl
    rw [hd₁] at hl
    exact String.ext ((hd.trans (toNameKeyL_idem_of_not_hyphen hl)).trans hd₁.symm)

/-- C6 counterexample: normalized keys need not match
`^[a-z0-9]([a-z0-9-]{0,38}[a-z0-9])?$`: the input of 39 `a`s, a space and a
`b` normalizes to a nonempty 40-character key ending in a hyphen. -/
theorem claim_C6_counterexample :
    keyRegexOk (toNameKey ⟨List.replicate 39 'a' ++ [' ', 'b']⟩) = false := by
  decide

/-- C6 amended: every normalized key is empty or has length at most 40,
consists only of characters in `[a-z0-9-]` and does not start with a hyphen;
it can end with a hyphen, but only when its length is exactly 40 (the
truncation case). -/
theorem claim_C6_key_shape (s : String) :
    (toNameKey s).data = [] ∨
      ((toNameKey s).data.length ≤ 40 ∧
       (∀ c ∈ (toNameKey s).data, isKeyChar c = true) ∧
       (toNameKey s).data.head? ≠ some '-' ∧
       ((toNameKey s).data.getLast? ≠ some '-' ∨
         (toNameKey s).data.length = 40)) := by
  by_cases he : (toNameKey s).data = []
  · exact Or.inl he
  · refine Or.inr ⟨length_toNameKeyL_le s.data,
      fun c hc => mem_toNameKeyL_isKeyChar hc, ?_, ?_⟩
    · intro hh
      exact head?_toNameKeyL s.data '-' hh rfl
    · by_cases hl : (toNameKey s).data.getLast? = some '-'
      · exact Or.inr (length_of_getLast?_toNameKeyL_hyphen hl)
      · exact Or.inl hl

/-- C7: the source normalizer coincides with the spec's reference definition
(trim, lowercase, collapse whitespace runs to hyphens, strip to `[a-z0-9-]`,
collapse hyphen runs, trim leading/trailing hyphens, truncate to 40), and the
two concrete examples hold: `"  Magnus Home!! "` normalizes to
`"magnus-home"` and `"---"` to the empty string. -/
theorem claim_C7_normalizer_reference :
    (∀ s : String, specNormalize s = toNameKey s) ∧
      toNameKey "  Magnus Home!! " = "magnus-home" ∧ toNameKey "---" = "" := by
  refine ⟨fun s => congrArg String.mk (specNormalizeL_eq_toNameKeyL s.data), ?_, ?_⟩
  · decide
  · decide

/-- C4: join normalizes the name and fails with `InvalidName` on an empty
key; otherwise it performs exactly one read (no writes), fails with
`NotFound` when no claim exists for the key, and returns the claimed group
identifier otherwise. -/
theorem claim_C4_join (d : DB) (n : String) :
    (toNameKey n = "" → joinByName d n = (.error .invalidName, [])) ∧
    (toNameKey n ≠ "" →
      (joinByName d n).2 = [.readClaim (toNameKey n)] ∧
      (∀ op ∈ (joinByName d n).2, op.isWrite = false) ∧
      (alookup (toNameKey n) d.claims = none →
        (joinByName d n).1 = .error .notFound) ∧
      (∀ id, alookup (toNameKey n) d.claims = some id →
        (joinByName d n).1 = .ok id)) := by
  constructor
  · intro h0
    simp [joinByName, h0]
  · intro hk
    cases hc : alookup (toNameKey n) d.claims with
    | none =>
      refine ⟨by simp [joinByName, hk, hc], ?_, ?_, ?_⟩
      · intro op hop
        simp [joinByName, hk, hc] at hop
        simp [hop, TxOp.isWrite]
      · intro _
        simp [joinByName, hk, hc]
      · intro id hid
        cases hid
    | some b =>
      refine ⟨by simp [joinByName, hk, hc], ?_, ?_, ?_⟩
      · intro op hop
        simp [joinByName, hk, hc] at hop
        simp [hop, TxOp.isWrite]
      · intro h0
        cases h0
      · intro id hid
        injection hid with hid
        subst hid
        simp [joinByName, hk, hc]

/-- C4 witness: concrete join outcomes — a successful join, a `NotFound`
miss and an `InvalidName` rejection. -/
theorem claim_C4_join_witness :
    (joinByName (⟨[], [("magnus-home", "g1")]⟩ : DB) "Magnus Home").1 = .ok "g1" ∧
    (joinByName (⟨[], []⟩ : DB) "nonexistent-key").1 = .error .notFound ∧
    joinByName (⟨[], []⟩ : DB) "!!!" = (.error .invalidName, []) := by
  refine ⟨?_, ?_, ?_⟩
  · exact ((claim_C4_join ⟨[], [("magnus-home", "g1")]⟩ "Magnus Home").2
      (by decide)).2.2.2 "g1" (by decide)
  · exact ((claim_C4_join ⟨[], []⟩ "nonexistent-key").2 (by decide)).2.2.1 (by decide)
  · exact (claim_C4_join ⟨[], []⟩ "!!!").1 (by decide)

/-- C1: create normalizes the name and fails with `InvalidName` on an empty
key; within the transaction it fails with `NameTaken` leaving the state
unchanged when the key is claimed, and otherwise writes the group record
(name, key, timestamp) and the claim and returns the fresh identifier; two
creates whose names normalize to the same key see the first succeed and the
second fail with `NameTaken`. -/
theorem claim_C1_create (d : DB) (input freshId : String) (now : Nat) :
    (toNameKey input = "" →
      createByName d input freshId now = (.error .invalidName, [], d)) ∧
    (toNameKey input ≠ "" →
      (∀ b, alookup (toNameKey input) d.claims = some b →
        createByName d input freshId now =
          (.error .nameTaken, [.readClaim (toNameKey input)], d)) ∧
      (alookup (toNameKey input) d.claims = none →
        createByName d input freshId now =
          (.ok freshId,
           [.readClaim (toNameKey input),
            .createGroupDoc freshId (jsTrim input) (toNameKey input) now,
            .setClaim (toNameKey input) freshId],
           ⟨aset freshId ⟨jsTrim input, toNameKey input, some now⟩ d.groups,
            aset (toNameKey input) freshId d.claims⟩))) ∧
    (∀ input₂ freshId₂ now₂, toNameKey input₂ = toNameKey input →
      toNameKey input ≠ "" → alookup (toNameKey input) d.claims = none →
      (createByName d input freshId now).1 = .ok freshId ∧
      (createByName (createByName d input freshId now).2.2 input₂ freshId₂
          now₂).1 = .error .nameTaken) := by
  have hj : toNameKey (jsTrim input) = toNameKey input := toNameKey_jsTrim input
  refine ⟨fun h0 => createByName_invalid d input freshId now (hj.trans h0),
    fun hk => ⟨?_, ?_⟩, ?_⟩
  · intro b hb
    have h := createByName_taken d input freshId now
      (fun e => hk (hj.symm.trans e)) (by rw [hj]; exact hb)
    rw [hj] at h
    exact h
  · intro hnone
    have h := createByName_ok d input freshId now
      (fun e => hk (hj.symm.trans e)) (by rw [hj]; exact hnone)
    rw [hj] at h
    exact h
  · intro input₂ freshId₂ now₂ h₂ hk hnone
    have hj₂ : toNameKey (jsTrim input₂) = toNameKey input := (toNameKey_jsTrim input₂).trans h₂
    have h := createByName_ok d input freshId now
      (fun e => hk (hj.symm.trans e)) (by rw [hj]; exact hnone)
    rw [hj] at h
    constructor
    · rw [h]
    · have hb₂ : alookup (toNameKey (jsTrim input₂))
          (createByName d input freshId now).2.2.claims = some freshId := by
        rw [hj₂, h]
        exact alookup_aset_self _ _ _
      have ht := createByName_taken _ input₂ freshId₂ now₂
        (fun e => hk (hj₂.symm.trans e)) hb₂
      rw [ht]

/-- C1 witness: concrete create outcomes — a successful create, the
name-collision on the differently-spelled same key, and an `InvalidName`
rejection. -/
theorem claim_C1_create_witness :
    ((createByName (⟨[], []⟩ : DB) "Magnus Home" "g1" 5).1 = .ok "g1" ∧
     (createByName (createByName (⟨[], []⟩ : DB) "Magnus Home" "g1" 5).2.2
        "magnus home" "g2" 6).1 = .error .nameTaken) ∧
    createByName (⟨[], []⟩ : DB) "!!!" "g3" 7 = (.error .invalidName, [], ⟨[], []⟩) ∧
    createByName (⟨[], []⟩ : DB) "Magnus Home" "g1" 5 =
      (.ok "g1",
       [.readClaim "magnus-home", .createGroupDoc "g1" "Magnus Home" "magnus-home" 5,
        .setClaim "magnus-home" "g1"],
       ⟨[("g1", ⟨"Magnus Home", "magnus-home", some 5⟩)], [("magnus-home", "g1")]⟩) ∧
    createByName (⟨[], [("magnus-home", "g0")]⟩ : DB) "Magnus Home" "g1" 5 =
      (.error .nameTaken, [.readClaim "magnus-home"], ⟨[], [("magnus-home", "g0")]⟩) := by
  refine ⟨?_, ?_, ?_, ?_⟩
  · exact (claim_C1_create ⟨[], []⟩ "Magnus Home" "g1" 5).2.2 "magnus home" "g2" 6
      (by decide) (by decide) (by decide)
  · exact (claim_C1_create ⟨[], []⟩ "!!!" "g3" 7).1 (by decide)
  · have h := ((claim_C1_create ⟨[], []⟩ "Magnus Home" "g1" 5).2.1 (by decide)).2 (by decide)
    rw [h]
    decide
  · exact ((claim_C1_create ⟨[], [("magnus-home", "g0")]⟩ "Magnus Home" "g1" 5).2.1
      (by decide)).1 "g0" (by decide)

/-- C3: rename to a key already claimed by a different group fails with
`NameTaken` and leaves the whole state — the group record and both
claim-table entries — unchanged: no partial write is observable. -/
theorem claim_C3_rename_taken (d : DB) (A t b : String) (ok? : Option String)
    (hk : toNameKey t ≠ "")
    (hb : alookup (toNameKey t) d.claims = some b) (hne : b ≠ A) :
    (saveRename d A ok? t).1 = .error .nameTaken ∧
    (saveRename d A ok? t).2.2 = d := by
  have hj := toNameKey_jsTrim t
  have h := saveRename_taken d A ok? t
    (fun e => hk (hj.symm.trans e)) (by rw [hj]; exact hb) hne
  rw [h]
  exact ⟨rfl, rfl⟩

/-- C3 witness: renaming group `A` to the name `"Taken"`, whose key is
claimed by group `B`, fails with `NameTaken` and leaves the state intact. -/
theorem claim_C3_rename_taken_witness :
    (saveRename ⟨[("A", ⟨"Old", "old", some 1⟩)], [("old", "A"), ("taken", "B")]⟩
        "A" (some "old") "Taken").1 = .error .nameTaken ∧
    (saveRename ⟨[("A", ⟨"Old", "old", some 1⟩)], [("old", "A"), ("taken", "B")]⟩
        "A" (some "old") "Taken").2.2 =
      ⟨[("A", ⟨"Old", "old", some 1⟩)], [("old", "A"), ("taken", "B")]⟩ :=
  claim_C3_rename_taken _ "A" "Taken" "B" (some "old") (by decide) (by decide)
    (by decide)

/-- C2: a rename whose new key is non-empty and unclaimed or claimed by the
group itself succeeds: the group record's name and key are updated
(preserving the creation timestamp), the claim at the new key is written
before the old claim is deleted, the old claim is deleted only when it
differs from the new key and still points to the group, and afterwards join
by the new name returns the group while join by the old name reports
`NotFound`. -/
theorem claim_C2_rename_success (d : DB) (A k₀ t : String)
    (hk : toNameKey t ≠ "")
    (hclaim : alookup (toNameKey t) d.claims = none ∨
      alookup (toNameKey t) d.claims = some A) :
    (saveRename d A (some k₀) t).1 = .ok () ∧
    (∀ g, alookup A d.groups = some g →
      alookup A (saveRename d A (some k₀) t).2.2.groups =
        some ⟨jsTrim t, toNameKey t, g.createdAt⟩) ∧
    alookup (toNameKey t) (saveRename d A (some k₀) t).2.2.claims = some A ∧
    (k₀ ≠ "" → k₀ ≠ toNameKey t → alookup k₀ d.claims = some A →
      (saveRename d A (some k₀) t).2.1 =
        [.readClaim (toNameKey t), .mergeGroupNameKey A (jsTrim t) (toNameKey t),
         .setClaim (toNameKey t) A, .readClaim k₀, .deleteClaim k₀] ∧
      alookup k₀ (saveRename d A (some k₀) t).2.2.claims = none) ∧
    (k₀ ≠ toNameKey t → (∀ m, alookup k₀ d.claims = some m → m ≠ A) →
      alookup k₀ (saveRename d A (some k₀) t).2.2.claims = alookup k₀ d.claims) ∧
    (joinByName (saveRename d A (some k₀) t).2.2 t).1 = .ok A ∧
    (∀ oldName : String, toNameKey oldName = k₀ → k₀ ≠ "" → k₀ ≠ toNameKey t →
      alookup k₀ d.claims = some A →
      (joinByName (saveRename d A (some k₀) t).2.2 oldName).1 =
        .error .notFound) := by
  have hj := toNameKey_jsTrim t
  have hk' : toNameKey (jsTrim t) ≠ "" := fun e => hk (hj.symm.trans e)
  have hclaim' : ∀ b, alookup (toNameKey (jsTrim t)) d.claims = some b → b = A := by
    rw [hj]
    rcases hclaim with hna | hsa
    · intro b hb
      rw [hna] at hb
      cases hb
    · intro b hb
      rw [hsa] at hb
      injection hb with hb
      exact hb.symm
  by_cases hg0 : k₀ = ""
  · have h := saveRename_ok_guardFalse d A (some k₀) t hk' hclaim'
      (Or.inr (Or.inl (by rw [hg0])))
    rw [hj] at h
    rw [h]
    refine ⟨rfl, ?_, alookup_aset_self _ _ _, ?_, ?_, ?_, ?_⟩
    · intro g hgq
      simp [alookup_aset_self, mergeRec, hgq]
    · intro hne
      exact absurd hg0 hne
    · intro _ _
      exact alookup_aset_ne (fun e => hk (e.trans hg0)) _ _
    · simp [joinByName, hk, alookup_aset_self]
    · intro oldName _ hk₀ _ _
      exact absurd hg0 hk₀
  · by_cases hgn : k₀ = toNameKey t
    · have h := saveRename_ok_guardFalse d A (some k₀) t hk' hclaim'
        (Or.inr (Or.inr (by rw [hj, ← hgn])))
      rw [hj] at h
      rw [h]
      refine ⟨rfl, ?_, alookup_aset_self _ _ _, ?_, ?_, ?_, ?_⟩
      · intro g hgq
        simp [alookup_aset_self, mergeRec, hgq]
      · intro _ hne
        exact absurd hgn hne
      · intro hne
        exact absurd hgn hne
      · simp [joinByName, hk, alookup_aset_self]
      · intro oldName _ _ hne _
        exact absurd hgn hne
    · have hne' : toNameKey t ≠ k₀ := Ne.symm hgn
      cases hc₀ : alookup k₀ d.claims with
      | some m =>
        by_cases hmA : m = A
        · have h := saveRename_ok_del d A k₀ t hk' hclaim' hg0
            (by rw [hj]; exact hgn) (hmA ▸ hc₀)
          rw [hj] at h
          rw [h]
          refine ⟨rfl, ?_, ?_, ?_, ?_, ?_, ?_⟩
          · intro g hgq
            simp [alookup_aset_self, mergeRec, hgq]
          · rw [alookup_adel_ne hgn, alookup_aset_self]
          · intro _ _ _
            exact ⟨rfl, alookup_adel_self _ _⟩
          · intro _ hnotA
            exact absurd hmA (hnotA m rfl)
          · simp [joinByName, hk, alookup_adel_ne hgn, alookup_aset_self]
          · intro oldName ho hk₀ _ _
            simp [joinByName, ho, hk₀, alookup_adel_self]
        · have h := saveRename_ok_nodel d A k₀ t hk' hclaim' hg0
            (by rw [hj]; exact hgn)
            (fun m' hm' => by
              rw [hc₀] at hm'
              injection hm' with e
              exact e ▸ hmA)
          rw [hj] at h
          rw [h]
          refine ⟨rfl, ?_, alookup_aset_self _ _ _, ?_, ?_, ?_, ?_⟩
          · intro g hgq
            simp [alookup_aset_self, mergeRec, hgq]
          · intro _ _ hold
            injection hold with e
            exact absurd e hmA
          · intro _ _
            exact (alookup_aset_ne hne' _ _).trans hc₀
          · simp [joinByName, hk, alookup_aset_self]
          · intro oldName _ _ _ hold
            injection hold with e
            exact absurd e hmA
      | none =>
        have h := saveRename_ok_nodel d A k₀ t hk' hclaim' hg0
          (by rw [hj]; exact hgn)
          (fun m' hm' => by rw [hc₀] at hm'; cases hm')
        rw [hj] at h
        rw [h]
        refine ⟨rfl, ?_, alookup_aset_self _ _ _, ?_, ?_, ?_, ?_⟩
        · intro g hgq
          simp [alookup_aset_self, mergeRec, hgq]
        · intro _ _ hold
          cases hold
        · intro _ _
          exact (alookup_aset_ne hne' _ _).trans hc₀
        · simp [joinByName, hk, alookup_aset_self]
        · intro oldName _ _ _ hold
          cases hold

/-- C2 witness: renaming group `A` from `"Old Name"` to `"New Name"` (key
`"new-name"` unclaimed) succeeds, join by the new name returns `A`, and join
by the old name reports `NotFound`. -/
theorem claim_C2_rename_success_witness :
    (saveRename ⟨[("A", ⟨"Old Name", "old-name", some 1⟩)], [("old-name", "A")]⟩
        "A" (some "old-name") "New Name").1 = .ok () ∧
    (joinByName (saveRename
        ⟨[("A", ⟨"Old Name", "old-name", some 1⟩)], [("old-name", "A")]⟩
        "A" (some "old-name") "New Name").2.2 "New Name").1 = .ok "A" ∧
    (joinByName (saveRename
        ⟨[("A", ⟨"Old Name", "old-name", some 1⟩)], [("old-name", "A")]⟩
        "A" (some "old-name") "New Name").2.2 "Old Name").1 = .error .notFound := by
  have h := claim_C2_rename_success
    ⟨[("A", ⟨"Old Name", "old-name", some 1⟩)], [("old-name", "A")]⟩
    "A" "old-name" "New Name" (by decide) (Or.inl (by decide))
  exact ⟨h.1, h.2.2.2.2.2.1,
    h.2.2.2.2.2.2 "Old Name" (by decide) (by decide) (by decide) (by decide)⟩

theorem length_jsTrimL_le (l : List Char) : (jsTrimL l).length ≤ l.length := by
  rw [jsTrimL, List.length_reverse]
  calc ((l.dropWhile isJsWs).reverse.dropWhile isJsWs).length
      ≤ (l.dropWhile isJsWs).reverse.length :=
        (List.dropWhile_sublist _).length_le
    _ = (l.dropWhile isJsWs).length := List.length_reverse _
    _ ≤ l.length := (List.dropWhile_sublist _).length_le

theorem jsTrim_data (s : String) : (jsTrim s).data = jsTrimL s.data := by
  simp only [jsTrim]

theorem jsTrim_idem (s : String) : jsTrim (jsTrim s) = jsTrim s := by
  apply String.ext
  rw [jsTrim_data, jsTrim_data, jsTrimL_idem]

theorem length_jsTrim_le (s : String) : (jsTrim s).length ≤ s.length := by
  cases s with
  | mk l =>
    rw [jsTrim, String.length_mk, String.length_mk]
    exact length_jsTrimL_le l

/-- C8 counterexample: the rename transaction issues its read of the old
claim after the two `tx.set` writes, so "all reads happen before all
writes" fails on a successful rename with a differing previous key. -/
theorem claim_C8_counterexample :
    noReadAfterWrite
      (saveRename ⟨[("A", ⟨"Old Name", "old-name", some 1⟩)], [("old-name", "A")]⟩
        "A" (some "old-name") "New Name").2.1 = false := by
  decide

/-- C8 amended: Create's transaction always reads before writing; Rename's
transaction reads before writing exactly when it aborts with `NameTaken`,
was given an empty key, has no previous key, or the previous key is falsy
or equal to the new key — in the remaining (successful, key-changing) case
it reads the old claim after issuing its writes. -/
theorem claim_C8_reads_before_writes (d : DB) (input freshId : String)
    (now : Nat) (A t : String) (ok? : Option String) :
    noReadAfterWrite (createByName d input freshId now).2.1 = true ∧
    (noReadAfterWrite (saveRename d A ok? t).2.1 = true ↔
      (toNameKey t = "" ∨
       (∃ b, alookup (toNameKey t) d.claims = some b ∧ b ≠ A) ∨
       ok? = none ∨ ok? = some "" ∨ ok? = some (toNameKey t))) := by
  have hj := toNameKey_jsTrim t
  constructor
  · by_cases hk : toNameKey (jsTrim input) = ""
    · rw [createByName_invalid d input freshId now hk]
      rfl
    · cases hc : alookup (toNameKey (jsTrim input)) d.claims with
      | some b =>
        rw [createByName_taken d input freshId now hk hc]
        rfl
      | none =>
        rw [createByName_ok d input freshId now hk hc]
        rfl
  · by_cases hke : toNameKey t = ""
    · rw [saveRename_invalid d A ok? t (hj.trans hke)]
      exact iff_of_true rfl (Or.inl hke)
    · have hk' : toNameKey (jsTrim t) ≠ "" := fun e => hke (hj.symm.trans e)
      by_cases habort : ∃ b, alookup (toNameKey t) d.claims = some b ∧ b ≠ A
      · obtain ⟨b, hb, hbA⟩ := habort
        rw [saveRename_taken d A ok? t hk' (by rw [hj]; exact hb) hbA]
        exact iff_of_true rfl (Or.inr (Or.inl ⟨b, hb, hbA⟩))
      · have hclaim' : ∀ b, alookup (toNameKey (jsTrim t)) d.claims = some b →
            b = A := by
          rw [hj]
          intro b hb
          by_contra hne
          exact habort ⟨b, hb, hne⟩
        cases ok? with
        | none =>
          rw [saveRename_ok_guardFalse d A none t hk' hclaim' (Or.inl rfl)]
          exact iff_of_true rfl (Or.inr (Or.inr (Or.inl rfl)))
        | some k₀ =>
          by_cases hg0 : k₀ = ""
          · rw [saveRename_ok_guardFalse d A (some k₀) t hk' hclaim'
              (Or.inr (Or.inl (by rw [hg0])))]
            exact iff_of_true rfl (Or.inr (Or.inr (Or.inr (Or.inl (by rw [hg0])))))
          · by_cases hgn : k₀ = toNameKey t
            · rw [saveRename_ok_guardFalse d A (some k₀) t hk' hclaim'
                (Or.inr (Or.inr (by rw [hj, ← hgn])))]
              exact iff_of_true rfl
                (Or.inr (Or.inr (Or.inr (Or.inr (by rw [hgn])))))
            · have hfalse : ¬(noReadAfterWrite (saveRename d A (some k₀) t).2.1 =
                  true) := by
                cases hcold : alookup k₀ d.claims with
                | some m =>
                  by_cases hmA : m = A
                  · rw [saveRename_ok_del d A k₀ t hk' hclaim' hg0
                      (by rw [hj]; exact hgn) (hmA ▸ hcold)]
                    exact fun h => Bool.false_ne_true h
                  · rw [saveRename_ok_nodel d A k₀ t hk' hclaim' hg0
                      (by rw [hj]; exact hgn)
                      (fun m' hm' => by
                        rw [hcold] at hm'
                        injection hm' with e
                        exact e ▸ hmA)]
                    exact fun h => Bool.false_ne_true h
                | none =>
                  rw [saveRename_ok_nodel d A k₀ t hk' hclaim' hg0
                    (by rw [hj]; exact hgn)
                    (fun m' hm' => by rw [hcold] at hm'; cases hm')]
                  exact fun h => Bool.false_ne_true h
              refine iff_of_false hfalse ?_
              rintro (h | hex | h | h | h)
              · exact hke h
              · exact habort hex
              · cases h
              · injection h with e
                exact hg0 e
              · injection h with e
                exact hgn e

/-- C9 counterexample: Create writes the trimmed input name with no length
bound — a 41-character name is stored as-is (only the key is truncated to
40), so not every stored display name has trimmed length at most 40. -/
theorem claim_C9_counterexample :
    (createByName ⟨[], []⟩ ⟨List.replicate 41 'a'⟩ "g1" 0).1 = .ok "g1" ∧
    alookup "g1"
        (createByName ⟨[], []⟩ ⟨List.replicate 41 'a'⟩ "g1" 0).2.2.groups =
      some ⟨⟨List.replicate 41 'a'⟩, ⟨List.replicate 40 'a'⟩, some 0⟩ ∧
    (jsTrim (⟨List.replicate 41 'a'⟩ : String)).length = 41 := by
  decide

/-- C9 amended: Rename only ever writes a display name of trimmed length at
most 40, because its input field caps the text at 40 characters: under that
cap every group record after a rename either was already present or stores
the trimmed rename text, whose trimmed length is at most 40.  (Create has no
such bound — see the counterexample.) -/
theorem claim_C9_rename_name_length (d : DB) (A t : String)
    (ok? : Option String) (hlen : t.length ≤ 40) :
    ∀ id g, alookup id (saveRename d A ok? t).2.2.groups = some g →
      alookup id d.groups = some g ∨
        (g.name = jsTrim t ∧ (jsTrim g.name).length ≤ 40) := by
  have hmain : (saveRename d A ok? t).2.2 = d ∨
      (saveRename d A ok? t).2.2.groups =
        aset A (mergeRec d A (jsTrim t) (toNameKey (jsTrim t))) d.groups := by
    by_cases hke : toNameKey (jsTrim t) = ""
    · rw [saveRename_invalid d A ok? t hke]
      exact Or.inl rfl
    · by_cases habort : ∃ b, alookup (toNameKey (jsTrim t)) d.claims = some b ∧
          b ≠ A
      · obtain ⟨b, hb, hbA⟩ := habort
        rw [saveRename_taken d A ok? t hke hb hbA]
        exact Or.inl rfl
      · have hclaim' : ∀ b, alookup (toNameKey (jsTrim t)) d.claims = some b →
            b = A := by
          intro b hb
          by_contra hne
          exact habort ⟨b, hb, hne⟩
        cases ok? with
        | none =>
          rw [saveRename_ok_guardFalse d A none t hke hclaim' (Or.inl rfl)]
          exact Or.inr rfl
        | some k₀ =>
          by_cases hg0 : k₀ = ""
          · rw [saveRename_ok_guardFalse d A (some k₀) t hke hclaim'
              (Or.inr (Or.inl (by rw [hg0])))]
            exact Or.inr rfl
          · by_cases hgn : k₀ = toNameKey (jsTrim t)
            · rw [saveRename_ok_guardFalse d A (some k₀) t hke hclaim'
                (Or.inr (Or.inr (by rw [hgn])))]
              exact Or.inr rfl
            · cases hcold : alookup k₀ d.claims with
              | some m =>
                by_cases hmA : m = A
                · rw [saveRename_ok_del d A k₀ t hke hclaim' hg0 hgn
                    (hmA ▸ hcold)]
                  exact Or.inr rfl
                · rw [saveRename_ok_nodel d A k₀ t hke hclaim' hg0 hgn
                    (fun m' hm' => by
                      rw [hcold] at hm'
                      injection hm' with e
                      exact e ▸ hmA)]
                  exact Or.inr rfl
              | none =>
                rw [saveRename_ok_nodel d A k₀ t hke hclaim' hg0 hgn
                  (fun m' hm' => by rw [hcold] at hm'; cases hm')]
                exact Or.inr rfl
  have hname : (mergeRec d A (jsTrim t) (toNameKey (jsTrim t))).name =
      jsTrim t := by
    cases hq : alookup A d.groups <;> simp [mergeRec, hq]
  intro id g hg
  rcases hmain with hkey | hkey
  · rw [hkey] at hg
    exact Or.inl hg
  · rw [hkey] at hg
    by_cases hid : id = A
    · subst hid
      rw [alookup_aset_self] at hg
      injection hg with hg
      refine Or.inr ⟨hg ▸ hname, ?_⟩
      rw [← hg, hname, jsTrim_idem]
      exact le_trans (length_jsTrim_le t) hlen
    · rw [alookup_aset_ne (fun e => hid e.symm)] at hg
      exact Or.inl hg

/-- C9 witness: a rename with input of length at most 40 leaves only group
records with trimmed-name length at most 40 (or records untouched by the
rename). -/
theorem claim_C9_rename_name_length_witness :
    ("New Name" : String).length ≤ 40 ∧
    (alookup "A"
        (saveRename ⟨[("A", ⟨"Old Name", "old-name", some 1⟩)],
            [("old-name", "A")]⟩ "A" (some "old-name") "New Name").2.2.groups =
        some ⟨"New Name", "new-name", some 1⟩ →
      alookup "A"
          (⟨[("A", ⟨"Old Name", "old-name", some 1⟩)],
            [("old-name", "A")]⟩ : DB).groups =
          some ⟨"New Name", "new-name", some 1⟩ ∨
        (GroupRec.name ⟨"New Name", "new-name", some 1⟩ = jsTrim "New Name" ∧
          (jsTrim (GroupRec.name ⟨"New Name", "new-name", some 1⟩)).length ≤ 40)) :=
  ⟨by decide,
   claim_C9_rename_name_length
     ⟨[("A", ⟨"Old Name", "old-name", some 1⟩)], [("old-name", "A")]⟩
     "A" "New Name" (some "old-name") (by decide) "A"
     ⟨"New Name", "new-name", some 1⟩⟩

/-- C10 counterexample: an add whose text trims to the empty string changes
nothing even though no existing item matches it — the handler returns before
the duplicate check, so "otherwise exactly one new item is added" fails. -/
theorem claim_C10_counterexample :
    (List.any ([] : List Item)
        (fun i => i.nameLower == jsToLowerStr (jsTrim " ")) = false) ∧
    addItem [] " " = [] ∧ (addItem ([] : List Item) " ").length ≠ 1 := by
  decide

/-- C10 amended: for adds whose trimmed name is nonempty, the shopping list
enforces case-insensitive uniqueness: when an existing item's `nameLower`
equals the lowercase of the trimmed text the list is unchanged, and
otherwise exactly the one new item (with `purchased = false` and `nameLower`
the lowercase of its name) is appended. -/
theorem claim_C10_addItem (items : List Item) (text : String)
    (hne : jsTrim text ≠ "") :
    (items.any (fun i => i.nameLower == jsToLowerStr (jsTrim text)) = true →
      addItem items text = items) ∧
    (items.any (fun i => i.nameLower == jsToLowerStr (jsTrim text)) = false →
      addItem items text =
        items ++ [⟨jsTrim text, jsToLowerStr (jsTrim text), false⟩]) := by
  constructor <;> intro h <;> simp [addItem, hne, h]

/-- C10 witness: a duplicate (differing in case and surrounding whitespace)
does not change the list, and a new item is appended unpurchased. -/
theorem claim_C10_addItem_witness :
    (addItem [⟨"Milk", "milk", true⟩] " MILK " = [⟨"Milk", "milk", true⟩]) ∧
    (addItem [⟨"Milk", "milk", true⟩] "Eggs" =
      [⟨"Milk", "milk", true⟩, ⟨"Eggs", "eggs", false⟩]) := by
  constructor
  · exact (claim_C10_addItem [⟨"Milk", "milk", true⟩] " MILK " (by decide)).1
      (by decide)
  · exact (claim_C10_addItem [⟨"Milk", "milk", true⟩] "Eggs" (by decide)).2
      (by decide)

end HomeApp
